import Mathlib

/-!
Verification of the chunking, chat-scoped storage, keyword-retrieval and
query-routing logic of `services/simple_rag.py` (class `SimpleRAG`).

Text is modelled as `List Char`.  Python string primitives used by the code
(`s[i]` with negative indexing, `s[a:b]` slicing with clamping, `str.strip`,
`str.lower`, `str.split`, substring containment `in`) are embedded below with
Python's semantics.  The external collaborators (PDF/DOCX extraction, byte
storage, Cloudinary) are out of scope, as in the specification: operations of
the core receive the already-extracted text, the content-derived file id and
the storage metadata produced by `save_file` as inputs, and `delete_document`
takes the byte-deletion collaborator as a function argument.

The `while` loop of `chunk_text` can genuinely diverge (this matters for one
of the claims), so the loop is embedded with explicit fuel; `ChunkRes.out`
marks fuel exhaustion (= the loop still running) and `ChunkRes.err` marks a
Python `IndexError` raised by `text[i]`.
-/

/-- Whitespace characters stripped by Python's `str.strip()` (ASCII range). -/
def isPySpace (c : Char) : Bool :=
  c = ' ' || c = '\t' || c = '\n' || c = '\r' || c = '\x0b' || c = '\x0c'

/-- Python `str.strip()`: drop leading and trailing whitespace. -/
def pyStrip (s : List Char) : List Char :=
  ((s.dropWhile isPySpace).reverse.dropWhile isPySpace).reverse

/-- Python `str.lower()` (ASCII case mapping suffices for the texts involved). -/
def lowerL (s : List Char) : List Char :=
  s.map Char.toLower

/-- Clamp an index for Python slicing: negative indices count from the end,
then the result is clamped to `[0, n]`. -/
def pyClamp (n : Nat) (i : Int) : Nat :=
  (min (max (if i < 0 then (n : Int) + i else i) 0) n).toNat

/-- Python slice `s[a:b]`. -/
def pySlice (s : List Char) (a b : Int) : List Char :=
  (s.take (pyClamp s.length b)).drop (pyClamp s.length a)

/-- Python indexing `s[i]`: negative indices count from the end, out-of-range
access is an `IndexError`, modelled by `none`. -/
def pyIndex (s : List Char) (i : Int) : Option Char :=
  if 0 ≤ i then s.get? i.toNat
  else if 0 ≤ (s.length : Int) + i then s.get? ((s.length : Int) + i).toNat
  else none

/-- Python `range(e, stop, -1)`: the descending integers `e, e-1, ..., stop+1`. -/
def rangeDown (e stop : Int) : List Int :=
  (List.range (e - stop).toNat).map (fun (k : Nat) => e - (k : Int))

/-- The sentence-ending characters of `chunk_text` (`text[i] in '.!?\n'`). -/
def sentenceEnd (c : Char) : Bool :=
  c = '.' || c = '!' || c = '?' || c = '\n'

/-- Result of the backward boundary scan inside `chunk_text`. -/
inductive ScanRes where
  | found (e : Int)
  | nofind
  | ixerr
  deriving DecidableEq

/-- The `for i in range(...)` scan of `chunk_text` lines 180-183: walk the
candidate indices, return `found (i+1)` at the first sentence-ending
character, `nofind` if the range is exhausted, `ixerr` on `IndexError`. -/
def scanBack (text : List Char) : List Int → ScanRes
  | [] => .nofind
  | i :: rest =>
    match pyIndex text i with
    | none => .ixerr
    | some c => if sentenceEnd c then .found (i + 1) else scanBack text rest

/-- The end position chosen by one `chunk_text` iteration whose naive window
end `start + chunk_size` lies strictly inside the text (lines 177-183):
scan backward from the naive end down to
`max(start + chunk_size//2, end - 100)` (exclusive) for a sentence-ending
character; `none` models a raised `IndexError`. -/
def snapEnd (text : List Char) (start : Int) (cs : Nat) : Option Int :=
  match scanBack text
      (rangeDown (start + (cs : Int))
        (max (start + ((cs / 2 : Nat) : Int)) (start + (cs : Int) - 100))) with
  | .found e => some e
  | .nofind => some (start + (cs : Int))
  | .ixerr => none

/-- Outcome of the fueled `chunk_text` loop: `ok` = the Python loop finished,
`err` = it raised `IndexError`, `out` = fuel ran out (the loop is still
running; divergence is exhibited as `out` for every fuel). -/
inductive ChunkRes where
  | ok (chunks : List (List Char))
  | err
  | out
  deriving DecidableEq

/-- Lines 185-187: `chunk = text[start:end].strip(); if chunk:
chunks.append(chunk)` — empty results are dropped, never appended. -/
def pushChunk (acc : List (List Char)) (chunk : List Char) : List (List Char) :=
  if chunk = [] then acc else acc ++ [chunk]

/-- The `while start < len(text)` loop of `chunk_text` (lines 176-191),
with explicit fuel.  `acc` is the `chunks` list built so far. -/
def chunkLoop (text : List Char) (cs ov : Nat) : Nat → Int → List (List Char) → ChunkRes
  | 0, _, _ => .out
  | fuel + 1, start, acc =>
    if start < (text.length : Int) then
      match (if start + (cs : Int) < (text.length : Int)
             then snapEnd text start cs
             else some (start + (cs : Int))) with
      | none => .err
      | some e =>
        if (text.length : Int) ≤ e - (ov : Int) then
          .ok (pushChunk acc (pyStrip (pySlice text start e)))
        else
          chunkLoop text cs ov fuel (e - (ov : Int))
            (pushChunk acc (pyStrip (pySlice text start e)))
    else .ok acc

/-- `chunk_text(text, chunk_size, overlap)` (lines 168-193).  Texts not longer
than `chunk_size` are returned whole (and untrimmed) without entering the
loop. -/
def chunk_text (text : List Char) (cs ov : Nat) (fuel : Nat) : ChunkRes :=
  if text.length ≤ cs then .ok [text] else chunkLoop text cs ov fuel 0 []

example : chunk_text "hello".toList 1000 200 1 = .ok ["hello".toList] := by decide

example : chunk_text "abcd.fgh".toList 4 0 2 =
    .ok ["abcd.".toList, "fgh".toList] := by decide

example : snapEnd "abcd.fgh".toList 0 4 = some 5 := by decide

/-- `needle` is a leading segment of `hay`. -/
def startsWith : List Char → List Char → Bool
  | [], _ => true
  | _ :: _, [] => false
  | a :: as, b :: bs => a = b && startsWith as bs

/-- Python substring containment `needle in hay`. -/
def containsSub (needle : List Char) : List Char → Bool
  | [] => startsWith needle []
  | c :: rest => startsWith needle (c :: rest) || containsSub needle rest

/-- Python `str.split()` with no argument: split on runs of whitespace,
dropping empty pieces.  `acc` holds the current word, reversed. -/
def splitWsGo : List Char → List Char → List (List Char)
  | [], [] => []
  | [], acc => [acc.reverse]
  | c :: rest, acc =>
    if isPySpace c then
      if acc = [] then splitWsGo rest [] else acc.reverse :: splitWsGo rest []
    else splitWsGo rest (c :: acc)

/-- Python `str.split()`. -/
def splitWs (s : List Char) : List (List Char) :=
  splitWsGo s []

/-!
The regular expressions of `should_trigger_web_search` all have the shape
`L1.*L2.*...*Lk` (literal words joined by `.*`, some with a trailing `.*`,
which never affects whether `re.search` succeeds).  Such a pattern matches
under `re.search` iff the literals occur in order, with only non-newline
characters between consecutive literals (`.` does not match `'\n'` in
Python's default mode).  Each pattern is embedded as its list of literals.
-/

/-- After the first literal has been consumed: match the remaining literals in
order, skipping only non-newline characters between them (the `.*` gaps). -/
def matchFrom : List (List Char) → List Char → Bool
  | [], _ => true
  | l :: ls, s =>
    (startsWith l s && matchFrom ls (s.drop l.length)) ||
      (match s with
       | [] => false
       | c :: rest => c ≠ '\n' && matchFrom (l :: ls) rest)
  termination_by ls s => (ls.length, s.length)

/-- `re.search` of a pattern `L1.*L2.*...*Lk` given as its literal list: the
first literal may start anywhere in the string. -/
def reSearch : List (List Char) → List Char → Bool
  | [], _ => true
  | l :: ls, s =>
    (startsWith l s && matchFrom ls (s.drop l.length)) ||
      (match s with
       | [] => false
       | _ :: rest => reSearch (l :: ls) rest)

/-- `self.no_search_keywords` (lines 59-62). -/
def no_search_keywords : List (List Char) :=
  ["document".toList, "file".toList, "upload".toList, "analyze this".toList,
   "summarize this".toList, "from the document".toList, "in the pdf".toList,
   "according to the file".toList]

/-- `self.search_triggers` (lines 37-56). -/
def search_triggers : List (List Char) :=
  ["latest".toList, "recent".toList, "current".toList, "today".toList,
   "now".toList, "this week".toList, "this month".toList,
   "yesterday".toList, "breaking".toList, "update".toList, "news".toList,
   "new".toList, "fresh".toList, "live".toList,
   "weather".toList, "temperature".toList, "forecast".toList,
   "climate".toList, "rain".toList, "sunny".toList, "cloudy".toList,
   "humidity".toList, "wind".toList, "storm".toList, "hot".toList,
   "cold".toList, "degrees".toList,
   "stock price".toList, "exchange rate".toList, "cryptocurrency".toList,
   "bitcoin".toList, "price".toList,
   "market".toList, "cost".toList, "trending".toList, "viral".toList,
   "popular".toList,
   "happening".toList, "events".toList, "breaking news".toList,
   "what is the current".toList, "how much does".toList, "when did".toList,
   "who is currently".toList, "where is now".toList,
   "what happened today".toList, "tell me the current".toList]

/-- The `weather_patterns` regexes (lines 263-271), as literal lists. -/
def weather_patterns : List (List (List Char)) :=
  [["weather".toList, "in".toList],
   ["temperature".toList, "in".toList],
   ["how".toList, "hot".toList, "today".toList],
   ["how".toList, "cold".toList, "today".toList],
   ["rain".toList, "today".toList],
   ["forecast".toList, "for".toList],
   ["climate".toList, "in".toList]]

/-- The `question_patterns` regexes (lines 279-290), as literal lists. -/
def question_patterns : List (List (List Char)) :=
  [["what".toList, "is".toList, "price".toList],
   ["how".toList, "much".toList, "cost".toList],
   ["when".toList, "did".toList, "happen".toList],
   ["who".toList, "is".toList, "currently".toList],
   ["where".toList, "is".toList, "now".toList],
   ["what".toList, "happened".toList, "today".toList],
   ["latest".toList, "on".toList],
   ["current".toList, "weather".toList],
   ["tell".toList, "me".toList, "current".toList],
   ["what".toList, "is".toList, "the".toList, "current".toList]]

/-- The direct weather-word check of line 298. -/
def direct_weather_words : List (List Char) :=
  ["weather".toList, "temperature".toList, "forecast".toList,
   "climate".toList]

/-- `should_trigger_web_search(query)` (lines 246-302). -/
def should_trigger_web_search (query : List Char) : Bool :=
  let ql := lowerL query
  if no_search_keywords.any (fun k => containsSub k ql) then false
  else if search_triggers.any (fun t => containsSub t ql) then true
  else if weather_patterns.any (fun p => reSearch p ql) then true
  else if question_patterns.any (fun p => reSearch p ql) then true
  else if direct_weather_words.any (fun w => containsSub w ql) then true
  else false

example : should_trigger_web_search "what is the weather in Paris today".toList = true := by
  decide

example : should_trigger_web_search "summarize this document".toList = false := by decide

example : should_trigger_web_search "hello".toList = false := by decide

example : should_trigger_web_search "".toList = false := by decide

/-- The storage metadata dict returned by the `save_file` collaborator.  The
core never looks inside it beyond passing it to the byte-deletion
collaborator, which is modelled as a function argument of
`delete_document`; `save_file` always returns a non-empty dict, so the
`if not file_metadata` guard of `delete_document` is never taken. -/
structure FileMeta where
  storage_type : List Char
  location : List Char
  deriving DecidableEq

/-- One per-chat document record of `self.chat_documents[chat_id][file_id]`
(lines 215-221).  The `upload_time` string does not enter any claim and is
omitted. -/
structure DocData where
  filename : List Char
  chunks : List (List Char)
  full_text : List Char
  file_metadata : FileMeta
  deriving DecidableEq

/-- One entry of the flat `self.documents_metadata` registry (lines 224-231);
`chunks` is the chunk count `len(chunks)`. -/
structure MetaEntry where
  id : List Char
  filename : List Char
  file_metadata : FileMeta
  chunks : Nat
  chat_id : Option (List Char)
  deriving DecidableEq

/-- Python dicts are association lists in insertion order; keys are unique by
construction of the operations below. -/
abbrev ChatDocs : Type :=
  List (List Char × List (List Char × DocData))

/-- The mutable state of a `SimpleRAG` instance: the Global Registry
`documents_metadata` and the Chat Store `chat_documents`. -/
structure RAGState where
  documents_metadata : List MetaEntry
  chat_documents : ChatDocs
  deriving DecidableEq

/-- The state right after `__init__`: both structures empty. -/
def initRAG : RAGState :=
  ⟨[], []⟩

/-- Dict lookup on an association list (first matching key, as in a dict with
unique keys). -/
def lookupA {V : Type} : List (List Char × V) → List Char → Option V
  | [], _ => none
  | (k, v) :: rest, key => if k = key then some v else lookupA rest key

/-- Python `d[k] = v`: overwrite in place if the key exists (keeping its
position), otherwise append at the end. -/
def insertA {V : Type} : List (List Char × V) → List Char → V → List (List Char × V)
  | [], k, v => [(k, v)]
  | (k', v') :: rest, k, v =>
    if k' = k then (k, v) :: rest else (k', v') :: insertA rest k v

/-- Replace the value stored at `k`, leaving the list unchanged if `k` is
absent (used only when `k` is known to be present). -/
def updateA {V : Type} : List (List Char × V) → List Char → V → List (List Char × V)
  | [], _, _ => []
  | (k', v') :: rest, k, v =>
    if k' = k then (k, v) :: rest else (k', v') :: updateA rest k v

/-- Lines 211-221: `if chat_id not in self.chat_documents: ... = {}` then
`self.chat_documents[chat_id][file_id] = data`. -/
def insertDoc : ChatDocs → List Char → List Char → DocData → ChatDocs
  | [], c, fid, d => [(c, [(fid, d)])]
  | (c', docs) :: rest, c, fid, d =>
    if c' = c then (c', insertA docs fid d) :: rest
    else (c', docs) :: insertDoc rest c fid d

/-- Python truthiness of the optional `chat_id` argument (`if chat_id:`):
`None` and the empty string are falsy. -/
def truthyId : Option (List Char) → Bool
  | none => false
  | some c => c ≠ []

/-- Result dict of a successful `process_document` (lines 235-240). -/
structure ProcResult where
  filename : List Char
  chunk_count : Nat
  file_id : List Char
  deriving DecidableEq

/-- `process_document(file_content, filename, chat_id)` (lines 195-244),
restricted to the core: the `save_file` and `extract_text` collaborators
are external, so the extracted `text`, the content hash `file_id`
(`md5(file_content)[:10]`) and the storage metadata `fm` are inputs.
`none` models the raised exception: the empty-text `ValueError` of
line 204, or `chunk_text` not finishing within the supplied fuel.  The
state is mutated only after all the possible raises, so a failing call
leaves it untouched (the caller keeps the old state). -/
def process_document (st : RAGState) (text filename file_id : List Char)
    (fm : FileMeta) (chat_id : Option (List Char)) :
    Option (RAGState × ProcResult) :=
  if text = [] then none
  else
    match chunk_text text 1000 200 (text.length + 1) with
    | .ok chunks =>
      let store' :=
        match chat_id with
        | some c =>
          if c = [] then st.chat_documents
          else insertDoc st.chat_documents c file_id ⟨filename, chunks, text, fm⟩
        | none => st.chat_documents
      let meta' := st.documents_metadata ++
        [⟨file_id, filename, fm, chunks.length, chat_id⟩]
      some (⟨meta', store'⟩, ⟨filename, chunks.length, file_id⟩)
    | _ => none

/-- One scored chunk collected by `simple_search` (lines 319-323). -/
structure RelevantChunk where
  chunk : List Char
  score : Nat
  filename : List Char
  deriving DecidableEq

/-- Line 316: `score = sum(1 for word in query_words if word in chunk_lower)`.
Note the sum ranges over the token list with its duplicates. -/
def chunkScore (query_words : List (List Char)) (chunk_lower : List Char) : Nat :=
  (query_words.filter (fun w => containsSub w chunk_lower)).length

/-- Lines 313-323: for every document (in insertion order) and every chunk,
keep the chunks with a positive score. -/
def collectRelevant (qws : List (List Char)) : List (List Char × DocData) → List RelevantChunk
  | [] => []
  | (_, d) :: rest =>
    (d.chunks.filterMap (fun ch =>
      let sc := chunkScore qws (lowerL ch)
      if 0 < sc then some ⟨ch, sc, d.filename⟩ else none)) ++
      collectRelevant qws rest

/-- Stable insertion keeping earlier elements first among equal scores. -/
def insertDesc (x : RelevantChunk) : List RelevantChunk → List RelevantChunk
  | [] => [x]
  | y :: ys => if y.score ≤ x.score then x :: y :: ys else y :: insertDesc x ys

/-- Line 326: `relevant_chunks.sort(key=..., reverse=True)` — Python's sort is
stable, so equal scores keep their discovery order. -/
def sortDesc : List RelevantChunk → List RelevantChunk
  | [] => []
  | x :: xs => insertDesc x (sortDesc xs)

/-- Lines 333-338: the numbered context blocks, 1-based. -/
def buildContext : Nat → List RelevantChunk → List (List Char)
  | _, [] => []
  | i, rc :: rest =>
    ("[Document Reference ".toList ++ (toString i).toList ++ ": ".toList ++
      rc.filename ++ "]".toList ++ "\n".toList ++ rc.chunk) ::
      buildContext (i + 1) rest

/-- `"\n\n".join(...)` style separator join. -/
def joinSep (sep : List Char) : List (List Char) → List Char
  | [] => []
  | [x] => x
  | x :: xs => x ++ sep ++ joinSep sep xs

/-- The `enhanced_prompt` f-string of lines 340-347. -/
def docPrompt (context query : List Char) : List Char :=
  "You have access to relevant information from uploaded documents. Use this knowledge naturally in your response.\n\nAvailable Context:\n".toList ++
    context ++ "\n\nUser Query: ".toList ++ query ++
    "\n\nPlease provide a comprehensive and helpful response:".toList

/-- `simple_search(query, chat_id, top_k)` (lines 304-353).  The guard of
line 306 returns the query when `chat_id` is falsy, absent from the store,
or mapped to an empty dict; nothing in the body can raise, so the
`except` branch is dead. -/
def simple_search (store : ChatDocs) (query : List Char)
    (chat_id : Option (List Char)) (top_k : Nat) : List Char :=
  match chat_id with
  | none => query
  | some c =>
    if c = [] then query
    else
      match lookupA store c with
      | none => query
      | some docs =>
        if docs = [] then query
        else
          let qws := splitWs (lowerL query)
          let top := (sortDesc (collectRelevant qws docs)).take top_k
          if top = [] then query
          else docPrompt (joinSep "\n\n".toList (buildContext 1 top)) query

/-- `has_documents(chat_id)` (lines 423-427). -/
def has_documents (st : RAGState) (chat_id : Option (List Char)) : Bool :=
  match chat_id with
  | none => 0 < st.documents_metadata.length
  | some c =>
    if c = [] then 0 < st.documents_metadata.length
    else
      match lookupA st.chat_documents c with
      | some docs => 0 < docs.length
      | none => false

/-- Lines 452-456: find the first registry entry whose `filename` and
`chat_id` both match, returning its stored metadata. -/
def findMeta : List MetaEntry → List Char → Option (List Char) → Option FileMeta
  | [], _, _ => none
  | e :: rest, fname, cid =>
    if e.filename = fname ∧ e.chat_id = cid then some e.file_metadata
    else findMeta rest fname cid

/-- Lines 477-480: delete the first chat-store record whose filename matches
(`break` after the first hit), keeping the others in order. -/
def removeFirstByFilename : List (List Char × DocData) → List Char → List (List Char × DocData)
  | [], _ => []
  | (fid, d) :: rest, fname =>
    if d.filename = fname then rest else (fid, d) :: removeFirstByFilename rest fname

/-- `delete_document(filename, chat_id)` (lines 448-492).  `storageDel` is the
byte-deletion collaborator (Cloudinary / `os.remove` / unknown storage
type), which only determines the returned boolean.  When no registry entry
matches, the function returns `False` before any mutation. -/
def delete_document (storageDel : FileMeta → Bool) (st : RAGState)
    (filename : List Char) (chat_id : Option (List Char)) : RAGState × Bool :=
  match findMeta st.documents_metadata filename chat_id with
  | none => (st, false)
  | some fm =>
    let store' :=
      match chat_id with
      | some c =>
        if c = [] then st.chat_documents
        else
          match lookupA st.chat_documents c with
          | some docs =>
            updateA st.chat_documents c (removeFirstByFilename docs filename)
          | none => st.chat_documents
      | none => st.chat_documents
    let meta' := st.documents_metadata.filter
      (fun e => !(e.filename = filename ∧ e.chat_id = chat_id : Bool))
    (⟨meta', store'⟩, storageDel fm)

/-- The two mutating operations of the document lifecycle, as trace steps. -/
inductive Op where
  | ingest (text filename file_id : List Char) (fm : FileMeta)
      (chat_id : Option (List Char))
  | remove (filename : List Char) (chat_id : Option (List Char))
  deriving DecidableEq

/-- Run one lifecycle operation; a raising `process_document` leaves the state
unchanged, and the boolean result of `delete_document` is discarded. -/
def runOp (sd : FileMeta → Bool) (st : RAGState) : Op → RAGState
  | .ingest t f i fm c =>
    match process_document st t f i fm c with
    | some (st', _) => st'
    | none => st
  | .remove f c => (delete_document sd st f c).1

/-- The Global Registry entries belonging to chat `c`, projected to
`(id, filename, chunk_count)` in registry order. -/
def regFor (c : List Char) (st : RAGState) : List (List Char × List Char × Nat) :=
  (st.documents_metadata.filter (fun e => decide (e.chat_id = some c))).map
    (fun e => (e.id, e.filename, e.chunks))

/-- The Chat Store records of chat `c`, projected to
`(id, filename, chunk_count)` in insertion order. -/
def storeFor (c : List Char) (st : RAGState) : List (List Char × List Char × Nat) :=
  ((lookupA st.chat_documents c).getD []).map
    (fun p => (p.1, p.2.filename, p.2.chunks.length))

/-- The Registry/Chat-Store agreement: for every (non-empty) chat identifier
the registry slice and the chat's records coincide entry by entry, and the
chat's filenames are pairwise distinct. -/
def Consistent (st : RAGState) : Prop :=
  ∀ c : List Char, c ≠ [] →
    regFor c st = storeFor c st ∧
      ((storeFor c st).map (fun x => x.2.1)).Nodup

/-- Side condition on one trace step: an ingest into a (truthy) chat must use
a file id and a filename not already present in that chat.  Deletes and
chat-less ingests are unrestricted. -/
def okOp (st : RAGState) : Op → Prop
  | .ingest _ f i _ (some c) =>
    c = [] ∨ (i ∉ (storeFor c st).map (fun x => x.1) ∧
      f ∉ (storeFor c st).map (fun x => x.2.1))
  | .ingest _ _ _ _ none => True
  | .remove _ _ => True

/-- Every step of the trace satisfies its side condition in the state where it
runs. -/
def okTrace (sd : FileMeta → Bool) : RAGState → List Op → Prop
  | _, [] => True
  | st, op :: ops => okOp st op ∧ okTrace sd (runOp sd st op) ops

/-- The relevance score as the specification words it: the number of
*distinct* query tokens occurring as substrings of the lower-cased chunk.
(Second definition written from the spec to compare with `chunkScore`,
which is what the code computes.) -/
def distinctScore (query chunk : List Char) : Nat :=
  (((splitWs (lowerL query)).dedup).filter
    (fun w => containsSub w (lowerL chunk))).length

/-- "chat_id has no documents": the guard situations of line 306 — a falsy
`chat_id`, a chat absent from the store, or a chat mapped to an empty
dict. -/
def noDocsFor (store : ChatDocs) : Option (List Char) → Prop
  | none => True
  | some c => c = [] ∨ lookupA store c = none ∨ lookupA store c = some []

/-!  ## Supporting lemmas  -/

theorem mem_rangeDown {i e stop : Int} : i ∈ rangeDown e stop ↔ stop < i ∧ i ≤ e := by
  unfold rangeDown
  simp only [List.mem_map, List.mem_range]
  constructor
  · rintro ⟨k, hk, rfl⟩
    rw [Int.lt_toNat] at hk
    omega
  · rintro ⟨h1, h2⟩
    refine ⟨(e - i).toNat, ?_, ?_⟩
    · rw [Int.lt_toNat, Int.toNat_of_nonneg (by omega)]
      omega
    · rw [Int.toNat_of_nonneg (by omega)]
      omega

theorem scanBack_found {text : List Char} :
    ∀ {l : List Int} {e : Int}, scanBack text l = .found e →
      ∃ i ∈ l, e = i + 1 ∧ ∃ c, pyIndex text i = some c ∧ sentenceEnd c = true := by
  intro l
  induction l with
  | nil => intro e h; simp [scanBack] at h
  | cons i rest ih =>
    intro e h
    rw [scanBack] at h
    split at h
    · cases h
    · rename_i c hpi
      split at h
      · rename_i hse
        cases h
        exact ⟨i, List.mem_cons_self i rest, rfl, c, hpi, hse⟩
      · obtain ⟨j, hj, he, hc⟩ := ih h
        exact ⟨j, List.mem_cons_of_mem i hj, he, hc⟩

theorem pushChunk_nonempty {acc : List (List Char)} {c : List Char}
    (h : ∀ x ∈ acc, x ≠ []) : ∀ x ∈ pushChunk acc c, x ≠ [] := by
  unfold pushChunk
  by_cases hc : c = []
  · rw [if_pos hc]; exact h
  · rw [if_neg hc]
    intro x hx
    rcases List.mem_append.mp hx with hx | hx
    · exact h x hx
    · rw [List.mem_singleton.mp hx]; exact hc

theorem chunkLoop_ok_nonempty :
    ∀ (fuel : Nat) (text : List Char) (cs ov : Nat) (start : Int)
      (acc out : List (List Char)), (∀ x ∈ acc, x ≠ []) →
      chunkLoop text cs ov fuel start acc = .ok out → ∀ x ∈ out, x ≠ [] := by
  intro fuel
  induction fuel with
  | zero => intro text cs ov start acc out hacc h; cases h
  | succ n ih =>
    intro text cs ov start acc out hacc h
    rw [chunkLoop] at h
    split at h
    · split at h
      · cases h
      · rename_i e _
        split at h
        · cases h
          exact pushChunk_nonempty hacc
        · exact ih text cs ov _ _ out (pushChunk_nonempty hacc) h
    · cases h
      exact hacc

/-!  ## Claim C1 -/

theorem chunkLoop_abcd_step (n : Nat) (acc : List (List Char)) :
    chunkLoop "abcd.ghij".toList 6 5 (n + 1) 0 acc =
      chunkLoop "abcd.ghij".toList 6 5 n 0 (acc ++ ["abcd.".toList]) := rfl

/-- C1: the claim asserts that `chunk_text` terminates with `start` strictly
increasing for every `overlap` in `[0, chunk_size)`.  The code violates
this: on `chunk_text("abcd.ghij", 6, 5)` (overlap 5 < chunk_size 6) the
loop snaps `end` to 5 and resets `start = 5 - 5 = 0` forever, so the loop
never finishes for any amount of fuel. -/
theorem chunk_text_diverges_C1 :
    ∀ fuel : Nat, chunk_text "abcd.ghij".toList 6 5 fuel = .out := by
  have key : ∀ (fuel : Nat) (acc : List (List Char)),
      chunkLoop "abcd.ghij".toList 6 5 fuel 0 acc = .out := by
    intro fuel
    induction fuel with
    | zero => intro acc; rfl
    | succ n ih =>
      intro acc
      rw [chunkLoop_abcd_step]
      exact ih _
  intro fuel
  unfold chunk_text
  rw [if_neg (by decide)]
  exact key fuel []

/-!  ## Claim C5 -/

/-- C5 counterexample: for `text = " a"` (shorter than `chunk_size`) the code
returns the single element `" a"` — the *untrimmed* input, which differs
from the trimmed input the claim promises. -/
theorem chunk_text_short_untrimmed_C5 :
    chunk_text " a".toList 1000 200 1 = .ok [" a".toList] ∧
      " a".toList ≠ pyStrip " a".toList := by decide

/-- C5 (amended): a text no longer than `chunk_size` is returned as exactly
one element equal to the *untrimmed* input (so possibly with surrounding
whitespace, and empty when the text is empty); for a text longer than
`chunk_size`, every element of a completed run is non-empty, because empty
strip results are dropped rather than appended. -/
theorem chunk_text_shape_C5 :
    (∀ (text : List Char) (cs ov fuel : Nat), text.length ≤ cs →
      chunk_text text cs ov fuel = .ok [text]) ∧
    (∀ (text : List Char) (cs ov fuel : Nat) (out : List (List Char)),
      cs < text.length → chunk_text text cs ov fuel = .ok out →
      ∀ ch ∈ out, ch ≠ []) := by
  constructor
  · intro text cs ov fuel h
    unfold chunk_text
    rw [if_pos h]
  · intro text cs ov fuel out hlen h
    unfold chunk_text at h
    rw [if_neg (by omega)] at h
    exact chunkLoop_ok_nonempty fuel text cs ov 0 [] out (by simp) h

theorem C5_witness :
    chunk_text "ab".toList 5 2 1 = .ok ["ab".toList] ∧
      (∀ ch ∈ ["ab c".toList, "c de".toList, "e".toList], ch ≠ []) :=
  ⟨chunk_text_shape_C5.1 "ab".toList 5 2 1 (by decide),
    chunk_text_shape_C5.2 "ab c de".toList 4 1 3 _ (by decide) (by decide)⟩

/-!  ## Claim C6 -/

/-- C6 counterexample: the backward scan of lines 180-183 starts at index
`end` itself, so when the character *at* the naive end is a sentence
ender, the chosen end is `start + chunk_size + 1` — one position to the
right of the naive end, contradicting the claim.  On `"abcd.fgh"` with
`start = 0`, `chunk_size = 4`, the chosen end is 5 > 4, and the produced
first chunk `"abcd."` has 5 characters. -/
theorem snapEnd_right_of_naive_C6 :
    snapEnd "abcd.fgh".toList 0 4 = some 5 ∧ ¬((5 : Int) ≤ 0 + (4 : Int)) ∧
      chunk_text "abcd.fgh".toList 4 0 2 = .ok ["abcd.".toList, "fgh".toList] := by
  decide

/-- C6 (amended): the chosen end never exceeds the naive end by more than one
(the excess of exactly one occurs when the character at the naive end
itself ends a sentence); whenever the end differs from the naive end, the
position just before it holds a sentence-ending character and the end is
never pulled farther back than the tighter of `chunk_size/2` and 100
characters before the naive end; if no sentence-ending character occurs in
the scanned range, the naive end is used unmodified. -/
theorem snapEnd_bounds_C6 :
    ∀ (text : List Char) (start : Int) (cs : Nat) (e : Int),
      snapEnd text start cs = some e →
      (e = start + (cs : Int) ∨
        (max (start + ((cs / 2 : Nat) : Int)) (start + (cs : Int) - 100) + 2 ≤ e ∧
          e ≤ start + (cs : Int) + 1 ∧
          ∃ c, pyIndex text (e - 1) = some c ∧ sentenceEnd c = true)) ∧
      ((∀ i : Int, max (start + ((cs / 2 : Nat) : Int)) (start + (cs : Int) - 100) < i →
          i ≤ start + (cs : Int) → ∀ c, pyIndex text i = some c → sentenceEnd c = false) →
        e = start + (cs : Int)) := by
  intro text start cs e h
  unfold snapEnd at h
  cases hs : scanBack text
      (rangeDown (start + (cs : Int))
        (max (start + ((cs / 2 : Nat) : Int)) (start + (cs : Int) - 100))) with
  | found e' =>
    rw [hs] at h
    cases h
    obtain ⟨i, hi, he, c, hpi, hse⟩ := scanBack_found hs
    obtain ⟨hi1, hi2⟩ := mem_rangeDown.mp hi
    constructor
    · right
      refine ⟨by omega, by omega, c, ?_, hse⟩
      rw [he]
      simpa using hpi
    · intro hno
      exact absurd (hno i hi1 hi2 c hpi) (by simp [hse])
  | nofind =>
    rw [hs] at h
    cases h
    exact ⟨Or.inl rfl, fun _ => rfl⟩
  | ixerr => rw [hs] at h; cases h

theorem C6_witness :
    ((4 : Int) = 0 + (5 : Int) ∨
      (max ((0 : Int) + ((5 / 2 : Nat) : Int)) ((0 : Int) + (5 : Int) - 100) + 2 ≤ 4 ∧
        (4 : Int) ≤ 0 + (5 : Int) + 1 ∧
        ∃ c, pyIndex "abc.efgh".toList ((4 : Int) - 1) = some c ∧ sentenceEnd c = true)) ∧
    ((∀ i : Int, max ((0 : Int) + ((5 / 2 : Nat) : Int)) ((0 : Int) + (5 : Int) - 100) < i →
        i ≤ 0 + (5 : Int) → ∀ c, pyIndex "abc.efgh".toList i = some c →
        sentenceEnd c = false) → (4 : Int) = 0 + (5 : Int)) :=
  snapEnd_bounds_C6 "abc.efgh".toList 0 5 4 (by decide)

/-!  ## Claim C3 -/

/-- C3 counterexample: the claim says a token repeated in the query
contributes at most 1 to a chunk's score.  The code sums over the token
list with duplicates: for the query `"a a"` and the chunk `"Ab"` the score
computed by line 316 is 2, while the count of distinct matching tokens
is 1. -/
theorem chunkScore_repeated_token_C3 :
    chunkScore (splitWs (lowerL "a a".toList)) (lowerL "Ab".toList) = 2 ∧
      distinctScore "a a".toList "Ab".toList = 1 := by decide

/-- C3 (amended): the relevance score of a chunk is the number of entries of
the whitespace-split token list — counted with multiplicity — that occur
as substrings of the lower-cased chunk.  The distinct-token count of the
claim is a lower bound, and the two coincide exactly when the query has no
repeated token. -/
theorem chunkScore_amended_C3 :
    ∀ query chunk : List Char,
      distinctScore query chunk ≤ chunkScore (splitWs (lowerL query)) (lowerL chunk) ∧
        ((splitWs (lowerL query)).Nodup →
          chunkScore (splitWs (lowerL query)) (lowerL chunk) = distinctScore query chunk) := by
  intro q c
  constructor
  · exact (((splitWs (lowerL q)).dedup_sublist).filter _).length_le
  · intro hnd
    unfold distinctScore chunkScore
    rw [List.dedup_eq_self.mpr hnd]

theorem C3_witness :
    chunkScore (splitWs (lowerL "cat dog".toList)) (lowerL "the cat".toList) =
      distinctScore "cat dog".toList "the cat".toList :=
  (chunkScore_amended_C3 "cat dog".toList "the cat".toList).2 (by decide)

/-!  ## Claim C4 -/

/-- C4: the document-focused exclusion keywords override everything — if any
of them occurs as a substring of the lower-cased query the classifier
answers `false` regardless of any trigger keyword or pattern — and the
three concrete behaviours claimed for the classifier hold. -/
theorem classifier_C4 :
    (∀ q : List Char,
      no_search_keywords.any (fun k => containsSub k (lowerL q)) = true →
      should_trigger_web_search q = false) ∧
    should_trigger_web_search "what is the weather in Paris today".toList = true ∧
    should_trigger_web_search "summarize this document".toList = false ∧
    should_trigger_web_search "hello".toList = false := by
  refine ⟨?_, by decide, by decide, by decide⟩
  intro q h
  simp only [should_trigger_web_search]
  rw [if_pos h]

theorem C4_witness :
    should_trigger_web_search "what does the latest news say from the document".toList = false :=
  classifier_C4.1 "what does the latest news say from the document".toList (by decide)

/-!  ## Claim C7 -/

/-- C7: if the extracted text is empty, `process_document` raises (line 204
fires before any mutation), so the call fails and both the Chat Store and
the Global Registry are exactly as they were before the call. -/
theorem process_document_empty_C7 :
    ∀ (sd : FileMeta → Bool) (st : RAGState) (f i : List Char) (fm : FileMeta)
      (c : Option (List Char)),
      process_document st [] f i fm c = none ∧
        runOp sd st (.ingest [] f i fm c) = st := by
  intro sd st f i fm c
  exact ⟨rfl, rfl⟩

/-!  ## Claim C8 -/

theorem collectRelevant_nil : ∀ docs : List (List Char × DocData),
    collectRelevant [] docs = [] := by
  intro docs
  induction docs with
  | nil => rfl
  | cons p rest ih =>
    obtain ⟨fid, d⟩ := p
    rw [collectRelevant, ih, List.append_nil]
    exact List.filterMap_eq_nil_iff.mpr (fun a _ => rfl)

theorem collectRelevant_empty_query (docs : List (List Char × DocData)) :
    collectRelevant (splitWs (lowerL "".toList)) docs = [] :=
  collectRelevant_nil docs

/-- C8: the classifier returns `false` on the empty query; `simple_search`
returns the empty query unchanged for every chat (also chats holding
documents, since no token can score); and `simple_search` returns any
query unchanged whenever the chat has no documents. -/
theorem empty_query_safe_C8 :
    should_trigger_web_search "".toList = false ∧
    (∀ (store : ChatDocs) (cid : Option (List Char)) (k : Nat),
      simple_search store "".toList cid k = "".toList) ∧
    (∀ (store : ChatDocs) (q : List Char) (cid : Option (List Char)) (k : Nat),
      noDocsFor store cid → simple_search store q cid k = q) := by
  refine ⟨by decide, ?_, ?_⟩
  · intro store cid k
    cases cid with
    | none => rfl
    | some c =>
      simp only [simple_search]
      by_cases hc : c = []
      · rw [if_pos hc]
      · rw [if_neg hc]
        cases hl : lookupA store c with
        | none => rfl
        | some docs =>
          dsimp only
          by_cases hd : docs = []
          · rw [if_pos hd]
          · rw [if_neg hd]
            rw [collectRelevant_empty_query docs,
              show sortDesc [] = [] from rfl, List.take_nil, if_pos rfl]
  · intro store q cid k h
    cases cid with
    | none => rfl
    | some c =>
      simp only [simple_search]
      rcases h with hc | hl | hl
      · rw [if_pos hc]
      · by_cases hc : c = []
        · rw [if_pos hc]
        · rw [if_neg hc, hl]
      · by_cases hc : c = []
        · rw [if_pos hc]
        · rw [if_neg hc, hl]
          dsimp only
          rw [if_pos rfl]

theorem C8_witness :
    simple_search [("c".toList,
      [("X".toList, ⟨"f.txt".toList, ["hi there".toList], "hi there".toList,
        ⟨"local".toList, "p".toList⟩⟩)])] "hello".toList (some "d".toList) 3 =
      "hello".toList :=
  empty_query_safe_C8.2.2 _ "hello".toList (some "d".toList) 3
    (Or.inr (Or.inl (by decide)))

/-!  ## Claim C10 -/

/-- C10: retrieval never consults the Global Registry — `simple_search`
called with an absent or empty `chat_id` returns the query unchanged for
every store, and an ingestion performed without a `chat_id` grows only the
Global Registry while leaving the per-chat store untouched (so subsequent
chat-less searches still return the query unchanged). -/
theorem no_chat_retrieval_C10 :
    (∀ (store : ChatDocs) (q : List Char) (k : Nat),
      simple_search store q none k = q ∧ simple_search store q (some []) k = q) ∧
    (∀ (st : RAGState) (t f i : List Char) (fm : FileMeta) (st' : RAGState)
      (r : ProcResult),
      process_document st t f i fm none = some (st', r) →
      st'.chat_documents = st.chat_documents ∧
        st'.documents_metadata.length = st.documents_metadata.length + 1) := by
  constructor
  · intro store q k
    refine ⟨rfl, ?_⟩
    simp only [simple_search]
    rw [if_pos trivial]
  · intro st t f i fm st' r hp
    unfold process_document at hp
    split at hp
    · cases hp
    · split at hp
      · rename_i chunks heq
        injection hp with h
        obtain ⟨h1, h2⟩ := Prod.mk.injEq .. |>.mp h
        subst h1
        exact ⟨rfl, by simp⟩
      · cases hp

/-!  ## Association-list lemmas -/

theorem findMeta_eq_none {l : List MetaEntry} {f : List Char}
    {cid : Option (List Char)}
    (h : ∀ e ∈ l, ¬(e.filename = f ∧ e.chat_id = cid)) :
    findMeta l f cid = none := by
  induction l with
  | nil => rfl
  | cons e rest ih =>
    rw [findMeta, if_neg (h e (List.mem_cons_self e rest))]
    exact ih (fun x hx => h x (List.mem_cons_of_mem e hx))

theorem findMeta_append_some {l : List MetaEntry} {f : List Char}
    {cid : Option (List Char)} (e : MetaEntry) (he1 : e.filename = f)
    (he2 : e.chat_id = cid) :
    ∃ fm, findMeta (l ++ [e]) f cid = some fm := by
  induction l with
  | nil =>
    refine ⟨e.file_metadata, ?_⟩
    rw [List.nil_append, findMeta, if_pos ⟨he1, he2⟩]
  | cons x rest ih =>
    by_cases hx : x.filename = f ∧ x.chat_id = cid
    · exact ⟨x.file_metadata, by rw [List.cons_append, findMeta, if_pos hx]⟩
    · obtain ⟨fm, hfm⟩ := ih
      exact ⟨fm, by rw [List.cons_append, findMeta, if_neg hx]; exact hfm⟩

theorem lookupA_updateA_self {V : Type} {m : List (List Char × V)} {k : List Char}
    {v0 : V} (h : lookupA m k = some v0) (v : V) :
    lookupA (updateA m k v) k = some v := by
  induction m with
  | nil => cases h
  | cons p rest ih =>
    obtain ⟨k', v'⟩ := p
    by_cases hk : k' = k
    · rw [updateA, if_pos hk, lookupA, if_pos rfl]
    · rw [updateA, if_neg hk, lookupA, if_neg hk]
      rw [lookupA, if_neg hk] at h
      exact ih h

theorem lookupA_updateA_ne {V : Type} (m : List (List Char × V)) {k k' : List Char}
    (hne : k' ≠ k) (v : V) : lookupA (updateA m k v) k' = lookupA m k' := by
  induction m with
  | nil => rfl
  | cons p rest ih =>
    obtain ⟨k0, v0⟩ := p
    by_cases hk : k0 = k
    · subst hk
      rw [updateA, if_pos rfl, lookupA, lookupA,
        if_neg (fun hh => hne hh.symm), if_neg (fun hh => hne hh.symm)]
    · rw [updateA, if_neg hk, lookupA, lookupA]
      by_cases hk' : k0 = k'
      · rw [if_pos hk', if_pos hk']
      · rw [if_neg hk', if_neg hk']
        exact ih

theorem insertA_not_mem {V : Type} {l : List (List Char × V)} {k : List Char}
    (h : k ∉ l.map Prod.fst) (v : V) : insertA l k v = l ++ [(k, v)] := by
  induction l with
  | nil => rfl
  | cons p rest ih =>
    obtain ⟨k0, v0⟩ := p
    simp only [List.map_cons, List.mem_cons, not_or] at h
    rw [insertA, if_neg (fun he => h.1 he.symm), List.cons_append]
    congr 1
    exact ih h.2

theorem lookupA_insertDoc_self (store : ChatDocs) (c fid : List Char) (d : DocData) :
    lookupA (insertDoc store c fid d) c =
      some (insertA ((lookupA store c).getD []) fid d) := by
  induction store with
  | nil => simp [insertDoc, lookupA, insertA]
  | cons p rest ih =>
    obtain ⟨c0, docs0⟩ := p
    by_cases hc : c0 = c
    · rw [insertDoc, if_pos hc, lookupA, if_pos hc, lookupA, if_pos hc,
        Option.getD_some]
    · rw [insertDoc, if_neg hc, lookupA, if_neg hc, lookupA, if_neg hc]
      exact ih

theorem lookupA_insertDoc_ne (store : ChatDocs) {c c' : List Char}
    (hne : c' ≠ c) (fid : List Char) (d : DocData) :
    lookupA (insertDoc store c fid d) c' = lookupA store c' := by
  induction store with
  | nil => simp [insertDoc, lookupA, hne.symm]
  | cons p rest ih =>
    obtain ⟨c0, docs0⟩ := p
    by_cases hc : c0 = c
    · subst hc
      rw [insertDoc, if_pos rfl, lookupA, lookupA,
        if_neg (fun hh => hne hh.symm), if_neg (fun hh => hne hh.symm)]
    · rw [insertDoc, if_neg hc, lookupA, lookupA]
      by_cases hc' : c0 = c'
      · rw [if_pos hc', if_pos hc']
      · rw [if_neg hc', if_neg hc']
        exact ih

/-!  ## Registry / Chat-Store correspondence lemmas (for C2) -/

theorem removeFirst_sublist (docs : List (List Char × DocData)) (f : List Char) :
    List.Sublist (removeFirstByFilename docs f) docs := by
  induction docs with
  | nil => exact List.Sublist.refl []
  | cons p rest ih =>
    obtain ⟨fid, d⟩ := p
    rw [removeFirstByFilename]
    by_cases hd : d.filename = f
    · rw [if_pos hd]
      exact List.sublist_cons_self (fid, d) rest
    · rw [if_neg hd]
      exact List.Sublist.cons₂ (fid, d) ih

theorem removeFirst_proj (docs : List (List Char × DocData)) (f : List Char)
    (hnd : (docs.map (fun p => p.2.filename)).Nodup) :
    (removeFirstByFilename docs f).map
        (fun p => (p.1, p.2.filename, p.2.chunks.length)) =
      (docs.map (fun p => (p.1, p.2.filename, p.2.chunks.length))).filter
        (fun x => !decide (x.2.1 = f)) := by
  induction docs with
  | nil => rfl
  | cons p rest ih =>
    obtain ⟨fid, d⟩ := p
    simp only [List.map_cons, List.nodup_cons] at hnd
    obtain ⟨hnotin, hndr⟩ := hnd
    rw [removeFirstByFilename]
    by_cases hd : d.filename = f
    · rw [if_pos hd]
      rw [List.map_cons, List.filter_cons, if_neg (by simp [hd])]
      symm
      apply List.filter_eq_self.mpr
      intro x hx
      obtain ⟨q, hq, rfl⟩ := List.mem_map.mp hx
      have hne : q.2.filename ≠ f := by
        intro hqf
        apply hnotin
        rw [hd, ← hqf]
        exact List.mem_map_of_mem _ hq
      simp [hne]
    · rw [if_neg hd]
      rw [List.map_cons, List.map_cons, List.filter_cons,
        if_pos (by simp [hd]), ih hndr]

theorem regFilter_match (meta : List MetaEntry) (f c : List Char) :
    ((meta.filter
        (fun e => !decide (e.filename = f ∧ e.chat_id = some c))).filter
          (fun e => decide (e.chat_id = some c))).map
        (fun e => (e.id, e.filename, e.chunks)) =
      ((meta.filter (fun e => decide (e.chat_id = some c))).map
        (fun e => (e.id, e.filename, e.chunks))).filter
          (fun x => !decide (x.2.1 = f)) := by
  induction meta with
  | nil => rfl
  | cons e rest ih =>
    by_cases hch : e.chat_id = some c
    · by_cases hf : e.filename = f
      · simp only [List.filter_cons, hch, hf, and_self, decide_True, Bool.not_true]
        rw [if_neg (by simp), if_pos (by simp [hch])]
        simp only [List.map_cons, List.filter_cons]
        rw [if_neg (by simp [hf])]
        exact ih
      · simp only [List.filter_cons, hch]
        rw [if_pos (by simp [hf]), List.filter_cons, if_pos (by simp [hch]),
          if_pos (by simp [hch])]
        simp only [List.map_cons, List.filter_cons]
        rw [if_pos (by simp [hf])]
        rw [ih]
    · simp only [List.filter_cons]
      rw [if_pos (by simp [hch]), List.filter_cons, if_neg (by simp [hch]),
        if_neg (by simp [hch])]
      exact ih

theorem regFilter_nomatch (meta : List MetaEntry) (f : List Char)
    (cid : Option (List Char)) (c : List Char) (hne : cid ≠ some c) :
    (meta.filter
        (fun e => !decide (e.filename = f ∧ e.chat_id = cid))).filter
          (fun e => decide (e.chat_id = some c)) =
      meta.filter (fun e => decide (e.chat_id = some c)) := by
  induction meta with
  | nil => rfl
  | cons e rest ih =>
    by_cases hch : e.chat_id = some c
    · have hnm : ¬(e.filename = f ∧ e.chat_id = cid) := by
        rintro ⟨_, h2⟩
        rw [h2] at hch
        exact hne hch
      rw [List.filter_cons, if_pos (by simp [hnm]), List.filter_cons,
        if_pos (by simp [hch]), List.filter_cons, if_pos (by simp [hch]), ih]
    · by_cases hnm : (e.filename = f ∧ e.chat_id = cid)
      · rw [List.filter_cons, if_neg (by simp [hnm.1, hnm.2]), List.filter_cons,
          if_neg (by simp [hch]), ih]
      · rw [List.filter_cons, if_pos (by simp [hnm]), List.filter_cons,
          if_neg (by simp [hch]), List.filter_cons, if_neg (by simp [hch]), ih]

/-- One mutating operation preserves the Registry / Chat-Store agreement,
provided an ingest into a chat never reuses a file id or filename already
present in that chat. -/
theorem consistent_step (sd : FileMeta → Bool) (st : RAGState) (op : Op)
    (h : Consistent st) (hok : okOp st op) : Consistent (runOp sd st op) := by
  cases op with
  | ingest t f i fm cid =>
    cases hp : process_document st t f i fm cid with
    | none =>
      have hrun : runOp sd st (.ingest t f i fm cid) = st := by
        simp only [runOp, hp]
      rw [hrun]
      exact h
    | some pair =>
      obtain ⟨st1, r⟩ := pair
      have hrun : runOp sd st (.ingest t f i fm cid) = st1 := by
        simp only [runOp, hp]
      rw [hrun]
      unfold process_document at hp
      split at hp
      · cases hp
      · split at hp
        · rename_i chunks heq
          injection hp with hpair
          obtain ⟨h1, _⟩ := Prod.mk.injEq .. |>.mp hpair
          rw [← h1]
          intro c hc
          obtain ⟨hagree, hnodup⟩ := h c hc
          simp only [regFor, storeFor] at hagree hnodup ⊢
          cases cid with
          | none =>
            dsimp only
            refine ⟨?_, ?_⟩
            · rw [List.filter_append,
                show List.filter (fun e => decide (e.chat_id = some c))
                  [(⟨i, f, fm, chunks.length, none⟩ : MetaEntry)] = [] by simp,
                List.append_nil]
              exact hagree
            · exact hnodup
          | some c0 =>
            dsimp only
            by_cases hc0 : c0 = []
            · have hne : ¬((some c0 : Option (List Char)) = some c) := by
                rw [hc0]
                intro heq
                exact hc (Option.some.inj heq).symm
              rw [if_pos hc0]
              refine ⟨?_, ?_⟩
              · rw [List.filter_append,
                  show List.filter (fun e => decide (e.chat_id = some c))
                    [(⟨i, f, fm, chunks.length, some c0⟩ : MetaEntry)] = [] by
                      simp [hne],
                  List.append_nil]
                exact hagree
              · exact hnodup
            · rw [if_neg hc0]
              have hok2 : i ∉ (storeFor c0 st).map (fun x => x.1) ∧
                  f ∉ (storeFor c0 st).map (fun x => x.2.1) :=
                Or.resolve_left hok hc0
              by_cases hcc : c = c0
              · subst hcc
                have hfr : i ∉ ((lookupA st.chat_documents c).getD []).map
                    Prod.fst := by
                  intro hmem
                  apply hok2.1
                  obtain ⟨p, hp2, hpe⟩ := List.mem_map.mp hmem
                  exact List.mem_map.mpr
                    ⟨(p.1, p.2.filename, p.2.chunks.length),
                      List.mem_map.mpr ⟨p, hp2, rfl⟩, hpe⟩
                refine ⟨?_, ?_⟩
                · rw [List.filter_append,
                    show List.filter (fun e => decide (e.chat_id = some c))
                      [(⟨i, f, fm, chunks.length, some c⟩ : MetaEntry)] =
                        [(⟨i, f, fm, chunks.length, some c⟩ : MetaEntry)] by
                          simp,
                    List.map_append, hagree, lookupA_insertDoc_self,
                    Option.getD_some, insertA_not_mem hfr, List.map_append]
                  rfl
                · rw [lookupA_insertDoc_self, Option.getD_some,
                    insertA_not_mem hfr, List.map_append, List.map_append]
                  refine List.nodup_append.mpr
                    ⟨hnodup, List.nodup_singleton _, ?_⟩
                  intro a ha hb
                  simp only [List.map_cons, List.map_nil,
                    List.mem_singleton] at hb
                  subst hb
                  exact hok2.2 ha
              · refine ⟨?_, ?_⟩
                · rw [List.filter_append,
                    show List.filter (fun e => decide (e.chat_id = some c))
                      [(⟨i, f, fm, chunks.length, some c0⟩ : MetaEntry)] = []
                      by simp; exact fun heq => hcc heq.symm,
                    List.append_nil, hagree, lookupA_insertDoc_ne _ hcc]
                · rw [lookupA_insertDoc_ne _ hcc]
                  exact hnodup
        · cases hp
  | remove f cid =>
    cases hfm : findMeta st.documents_metadata f cid with
    | none =>
      have hrun : runOp sd st (.remove f cid) = st := by
        simp only [runOp, delete_document, hfm]
      rw [hrun]
      exact h
    | some fm =>
      intro c hc
      obtain ⟨hagree, hnodup⟩ := h c hc
      simp only [runOp, delete_document, hfm]
      by_cases hcid : cid = some c
      · subst hcid
        have hbase : ((storeFor c st).map (fun x => x.2.1)).Nodup := hnodup
        simp only [regFor, storeFor] at hagree ⊢
        rw [regFilter_match, hagree, if_neg hc]
        cases hl : lookupA st.chat_documents c with
        | none =>
          dsimp only
          rw [hl]
          exact ⟨rfl, List.nodup_nil⟩
        | some docs =>
          dsimp only
          rw [lookupA_updateA_self hl (removeFirstByFilename docs f)]
          simp only [Option.getD_some]
          have hnodup2 : ((docs.map
              (fun p => (p.1, p.2.filename, p.2.chunks.length))).map
                (fun x => x.2.1)).Nodup := by
            simp only [storeFor, hl, Option.getD_some] at hbase
            exact hbase
          have hnd : (docs.map (fun p => p.2.filename)).Nodup := by
            rw [List.map_map] at hnodup2
            exact hnodup2
          constructor
          · rw [removeFirst_proj docs f hnd]
          · have hsub := List.Sublist.map
              (fun p => ((p.1, p.2.filename, p.2.chunks.length) :
                List Char × List Char × Nat)) (removeFirst_sublist docs f)
            have hsub2 := List.Sublist.map
              (fun x => (x.2.1 : List Char)) hsub
            exact List.Nodup.sublist hsub2 hnodup2
      · cases cid with
        | none =>
          refine ⟨?_, ?_⟩
          · simp only [regFor, storeFor] at hagree ⊢
            rw [regFilter_nomatch _ _ _ _ hcid, hagree]
          · exact hnodup
        | some c0 =>
          dsimp only
          have hc0c : c ≠ c0 := fun heq => hcid (by rw [heq])
          by_cases hc0 : c0 = []
          · rw [if_pos hc0]
            refine ⟨?_, ?_⟩
            · simp only [regFor, storeFor] at hagree ⊢
              rw [regFilter_nomatch _ _ _ _ hcid, hagree]
            · exact hnodup
          · rw [if_neg hc0]
            cases hl0 : lookupA st.chat_documents c0 with
            | none =>
              dsimp only
              refine ⟨?_, ?_⟩
              · simp only [regFor, storeFor] at hagree ⊢
                rw [regFilter_nomatch _ _ _ _ hcid, hagree]
              · exact hnodup
            | some docs0 =>
              dsimp only
              refine ⟨?_, ?_⟩
              · simp only [regFor, storeFor] at hagree ⊢
                rw [regFilter_nomatch _ _ _ _ hcid, hagree,
                  lookupA_updateA_ne _ hc0c]
              · simp only [storeFor] at hnodup ⊢
                rw [lookupA_updateA_ne _ hc0c]
                exact hnodup

/-!  ## Claim C9 -/

theorem noDocs_meta_nil {st : RAGState}
    (h : decide (0 < st.documents_metadata.length) = false) :
    st.documents_metadata = [] := by
  rw [decide_eq_false_iff_not, not_lt, Nat.le_zero, List.length_eq_zero] at h
  exact h

theorem delete_preserves_noDocs (sd : FileMeta → Bool) (st : RAGState)
    (f : List Char) (cid : Option (List Char))
    (h : has_documents st cid = false) :
    has_documents (delete_document sd st f cid).1 cid = false := by
  cases hfm : findMeta st.documents_metadata f cid with
  | none =>
    simp only [delete_document, hfm]
    exact h
  | some fm =>
    cases cid with
    | none =>
      exfalso
      simp only [has_documents] at h
      rw [noDocs_meta_nil h] at hfm
      cases hfm
    | some c =>
      by_cases hc : c = []
      · exfalso
        simp only [has_documents, if_pos hc] at h
        rw [noDocs_meta_nil h] at hfm
        cases hfm
      · simp only [has_documents, if_neg hc] at h
        simp only [delete_document, hfm, has_documents, if_neg hc]
        cases hl : lookupA st.chat_documents c with
        | none =>
          dsimp only
          rw [hl]
        | some docs =>
          rw [hl] at h
          have hdocs : docs = [] := by
            rw [decide_eq_false_iff_not, not_lt, Nat.le_zero,
              List.length_eq_zero] at h
            exact h
          subst hdocs
          dsimp only
          rw [lookupA_updateA_self hl (removeFirstByFilename [] f)]
          rfl

/-- C9: deleting a `(filename, chat_id)` pair with no matching Global
Registry entry returns `false` and leaves the state — registry and Chat
Store — completely unchanged; and from any state with no documents for a
chat, ingesting a document into that chat and then deleting it by the
same filename and chat id restores `has_documents` to `false`. -/
theorem delete_roundtrip_C9 :
    (∀ (sd : FileMeta → Bool) (st : RAGState) (f : List Char)
      (cid : Option (List Char)),
      (∀ e ∈ st.documents_metadata, ¬(e.filename = f ∧ e.chat_id = cid)) →
      delete_document sd st f cid = (st, false)) ∧
    (∀ (sd : FileMeta → Bool) (st : RAGState) (t f i : List Char) (fm : FileMeta)
      (cid : Option (List Char)),
      has_documents st cid = false →
      has_documents
        (runOp sd (runOp sd st (.ingest t f i fm cid)) (.remove f cid)) cid =
        false) := by
  constructor
  · intro sd st f cid hno
    simp only [delete_document, findMeta_eq_none hno]
  · intro sd st t f i fm cid h
    cases hp : process_document st t f i fm cid with
    | none =>
      have hrun : runOp sd st (.ingest t f i fm cid) = st := by
        simp only [runOp, hp]
      rw [hrun]
      exact delete_preserves_noDocs sd st f cid h
    | some pair =>
      obtain ⟨st1, r⟩ := pair
      have hrun : runOp sd st (.ingest t f i fm cid) = st1 := by
        simp only [runOp, hp]
      rw [hrun]
      unfold process_document at hp
      split at hp
      · cases hp
      · split at hp
        · rename_i chunks heq
          injection hp with hpair
          obtain ⟨h1, h2⟩ := Prod.mk.injEq .. |>.mp hpair
          obtain ⟨fm1, hfm⟩ := findMeta_append_some
            (l := st.documents_metadata)
            (⟨i, f, fm, chunks.length, cid⟩ : MetaEntry) rfl rfl
          cases cid with
          | none =>
            simp only [has_documents] at h
            have hm := noDocs_meta_nil h
            rw [← h1]
            show has_documents (delete_document sd _ f none).1 none = false
            simp only [delete_document]
            rw [hfm]
            simp only [has_documents, hm]
            simp
          | some c =>
            by_cases hc : c = []
            · simp only [has_documents, if_pos hc] at h
              have hm := noDocs_meta_nil h
              rw [← h1]
              show has_documents (delete_document sd _ f (some c)).1 (some c) =
                false
              simp only [delete_document]
              rw [hfm]
              simp only [has_documents, if_pos hc, hm]
              simp
            · simp only [has_documents, if_neg hc] at h
              have hold : ((lookupA st.chat_documents c).getD []) = [] := by
                cases hl : lookupA st.chat_documents c with
                | none => rfl
                | some docs =>
                  rw [hl] at h
                  rw [decide_eq_false_iff_not, not_lt, Nat.le_zero,
                    List.length_eq_zero] at h
                  rw [h]
                  rfl
              rw [← h1]
              show has_documents (delete_document sd _ f (some c)).1 (some c) =
                false
              simp only [delete_document]
              rw [hfm]
              simp only [has_documents, if_neg hc]
              have hsl : lookupA
                  (insertDoc st.chat_documents c i
                    ⟨f, chunks, t, fm⟩) c = some [(i, ⟨f, chunks, t, fm⟩)] := by
                rw [lookupA_insertDoc_self, hold]
                rfl
              rw [hsl]
              dsimp only
              rw [lookupA_updateA_self hsl
                (removeFirstByFilename [(i, ⟨f, chunks, t, fm⟩)] f)]
              simp [removeFirstByFilename]
        · cases hp

theorem C9_witness :
    delete_document (fun _ => true) initRAG "f.txt".toList (some "c".toList) =
      (initRAG, false) ∧
    has_documents
      (runOp (fun _ => true)
        (runOp (fun _ => true) initRAG
          (.ingest "hi".toList "f.txt".toList "X".toList
            ⟨"local".toList, "p".toList⟩ (some "c".toList)))
        (.remove "f.txt".toList (some "c".toList))) (some "c".toList) = false :=
  ⟨delete_roundtrip_C9.1 (fun _ => true) initRAG "f.txt".toList
      (some "c".toList) (fun e he => absurd he (List.not_mem_nil e)),
    delete_roundtrip_C9.2 (fun _ => true) initRAG "hi".toList "f.txt".toList
      "X".toList ⟨"local".toList, "p".toList⟩ (some "c".toList) (by decide)⟩

theorem C10_witness :
    simple_search [("c".toList,
      [("X".toList, ⟨"f.txt".toList, ["hi".toList], "hi".toList,
        ⟨"local".toList, "p".toList⟩⟩)])] "hi".toList none 3 = "hi".toList ∧
    (RAGState.mk [⟨"X".toList, "f.txt".toList, ⟨"local".toList, "p".toList⟩, 1, none⟩]
        []).chat_documents = initRAG.chat_documents :=
  ⟨(no_chat_retrieval_C10.1 _ "hi".toList 3).1,
    (no_chat_retrieval_C10.2 initRAG "hi".toList "f.txt".toList "X".toList
      ⟨"local".toList, "p".toList⟩ _ ⟨"f.txt".toList, 1, "X".toList⟩ (by decide)).1⟩

/-!  ## Claim C2 -/

theorem consistent_initRAG : Consistent initRAG := by
  intro c hc
  exact ⟨rfl, List.nodup_nil⟩

theorem consistent_trace (sd : FileMeta → Bool) :
    ∀ (ops : List Op) (st : RAGState), Consistent st → okTrace sd st ops →
      Consistent (ops.foldl (runOp sd) st) := by
  intro ops
  induction ops with
  | nil =>
    intro st h _
    exact h
  | cons op rest ih =>
    intro st h hok
    exact ih (runOp sd st op) (consistent_step sd st op h hok.1) hok.2

/-- C2 counterexample: the claim promises the Global Registry and the Chat
Store stay in one-to-one correspondence after *any* sequence of calls.
Ingesting the same content (same file id) twice into one chat appends two
registry entries but overwrites the single chat-store record, so after
that two-call sequence the registry holds 2 entries for the chat while the
chat store holds 1 record. -/
theorem registry_diverges_C2 :
    (regFor "c1".toList
        (runOp (fun _ => true)
          (runOp (fun _ => true) initRAG
            (.ingest "hello".toList "a.txt".toList "X".toList
              ⟨"local".toList, "p".toList⟩ (some "c1".toList)))
          (.ingest "hello".toList "a.txt".toList "X".toList
            ⟨"local".toList, "p".toList⟩ (some "c1".toList)))).length = 2 ∧
    (storeFor "c1".toList
        (runOp (fun _ => true)
          (runOp (fun _ => true) initRAG
            (.ingest "hello".toList "a.txt".toList "X".toList
              ⟨"local".toList, "p".toList⟩ (some "c1".toList)))
          (.ingest "hello".toList "a.txt".toList "X".toList
            ⟨"local".toList, "p".toList⟩ (some "c1".toList)))).length = 1 ∧
    regFor "c1".toList
        (runOp (fun _ => true)
          (runOp (fun _ => true) initRAG
            (.ingest "hello".toList "a.txt".toList "X".toList
              ⟨"local".toList, "p".toList⟩ (some "c1".toList)))
          (.ingest "hello".toList "a.txt".toList "X".toList
            ⟨"local".toList, "p".toList⟩ (some "c1".toList))) ≠
      storeFor "c1".toList
        (runOp (fun _ => true)
          (runOp (fun _ => true) initRAG
            (.ingest "hello".toList "a.txt".toList "X".toList
              ⟨"local".toList, "p".toList⟩ (some "c1".toList)))
          (.ingest "hello".toList "a.txt".toList "X".toList
            ⟨"local".toList, "p".toList⟩ (some "c1".toList))) := by decide

/-- C2 (amended): starting from the empty state, after any sequence of
`process_document` and `delete_document` calls in which every ingest into
a (non-empty) chat uses a file id and a filename not already present in
that chat, the Global Registry entries carrying a given non-empty chat id
correspond one-to-one — same ids, filenames and chunk counts, in the same
order — to the Document Records the Chat Store holds for that chat. -/
theorem registry_mirrors_store_C2 :
    ∀ (sd : FileMeta → Bool) (ops : List Op),
      okTrace sd initRAG ops → Consistent (ops.foldl (runOp sd) initRAG) := by
  intro sd ops hok
  exact consistent_trace sd ops initRAG consistent_initRAG hok

theorem C2_witness :
    Consistent
      ([Op.ingest "hi".toList "a.txt".toList "X".toList
          ⟨"local".toList, "p".toList⟩ (some "c1".toList),
        Op.remove "a.txt".toList (some "c1".toList)].foldl
        (runOp (fun _ => true)) initRAG) :=
  registry_mirrors_store_C2 (fun _ => true) _
    ⟨Or.inr ⟨by decide, by decide⟩, trivial, trivial⟩
